import Mathlib

/-!
Shallow embedding of `veros/core/streamfunction/solvers/petsc_.py`
(class `PETScSolver`): ownership-range construction, Poisson-stencil
assembly with land masking, boundary-coefficient extraction, Dirichlet
boundary injection into the right-hand side, the Krylov solve wrapper,
and the `solve` facade.  Machine floats are idealised as rationals;
arrays are total functions on natural indices together with explicit
padded sizes `m = nx + 4`, `n = ny + 4` (two ghost cells per side).
Python negative indices are translated accordingly: `-3 ↦ m - 3` and
so on.  The external Krylov solver (petsc4py KSP) is passed in as an
opaque function returning a solution, a convergence code and an
iteration count, exactly the data the code reads back from it.
-/

set_option maxHeartbeats 1000000

namespace Veros

/-- Full padded 2D scalar field, indexed `(i, j)` with `0 ≤ i < m`, `0 ≤ j < n`. -/
abbrev Arr2 : Type := ℕ → ℕ → ℚ

/-- 1D scalar field. -/
abbrev Arr1 : Type := ℕ → ℚ

/-- The 3D boolean field `vs.boundary_mask`, indexed `(i, j, k)`. -/
abbrev Mask3 : Type := ℕ → ℕ → ℕ → Bool

/-- Coefficient and metric fields read by `_assemble_poisson_matrix`
(`vs.hvr`, `vs.hur`, `vs.dxu`, `vs.dxt`, `vs.dyu`, `vs.dyt`,
`vs.cosu`, `vs.cost`), on the padded grid. -/
structure Fields where
  hvr : Arr2
  hur : Arr2
  dxu : Arr1
  dxt : Arr1
  dyu : Arr1
  dyt : Arr1
  cosu : Arr1
  cost : Arr1

/-- Entry `(i, j)` of `main_diag` (petsc_.py lines 116-135), where `(i, j)`
is the zero-based index into the interior block, so a python slice
`[2:-2]` reads index `i + 2` and `[3:-1]` reads `i + 3`. -/
def mainDiag (F : Fields) (i j : ℕ) : ℚ :=
  -F.hvr (i + 3) (j + 2) / F.dxu (i + 2) / F.dxt (i + 3) / F.cosu (j + 2) ^ 2
    - F.hvr (i + 2) (j + 2) / F.dxu (i + 2) / F.dxt (i + 2) / F.cosu (j + 2) ^ 2
    - F.hur (i + 2) (j + 2) / F.dyu (j + 2) / F.dyt (j + 2) * F.cost (j + 2) / F.cosu (j + 2)
    - F.hur (i + 2) (j + 3) / F.dyu (j + 2) / F.dyt (j + 3) * F.cost (j + 3) / F.cosu (j + 2)

/-- Entry `(i, j)` of `east_diag` (petsc_.py lines 136-138). -/
def eastDiag (F : Fields) (i j : ℕ) : ℚ :=
  F.hvr (i + 3) (j + 2) / F.dxu (i + 2) / F.dxt (i + 3) / F.cosu (j + 2) ^ 2

/-- Entry `(i, j)` of `west_diag` (petsc_.py lines 139-141). -/
def westDiag (F : Fields) (i j : ℕ) : ℚ :=
  F.hvr (i + 2) (j + 2) / F.dxu (i + 2) / F.dxt (i + 2) / F.cosu (j + 2) ^ 2

/-- Entry `(i, j)` of `north_diag` (petsc_.py lines 142-148). -/
def northDiag (F : Fields) (i j : ℕ) : ℚ :=
  F.hur (i + 2) (j + 3) / F.dyu (j + 2) / F.dyt (j + 3) * F.cost (j + 3) / F.cosu (j + 2)

/-- Entry `(i, j)` of `south_diag` (petsc_.py lines 149-155). -/
def southDiag (F : Fields) (i j : ℕ) : ℚ :=
  F.hur (i + 2) (j + 2) / F.dyu (j + 2) / F.dyt (j + 2) * F.cost (j + 2) / F.cosu (j + 2)

/-- The water mask used during assembly:
`boundary_mask = npx.all(~vs.boundary_mask[2:-2, 2:-2], axis=2)`
(petsc_.py line 113).  `nz` is the extent of the third axis. -/
def assembleMask (nz : ℕ) (mask3 : Mask3) (i j : ℕ) : Bool :=
  decide (∀ k < nz, mask3 (i + 2) (j + 2) k = false)

/-- Numeric value of a boolean mask entry, as in `numpy` bool-float products. -/
def maskQ (b : Bool) : ℚ := if b then 1 else 0

/-- Final center coefficient: `main_diag *= boundary_mask` followed by
`main_diag = npx.where(main_diag == 0.0, 1.0, main_diag)`
(petsc_.py lines 157-158). -/
def cfMain (nz : ℕ) (mask3 : Mask3) (F : Fields) (i j : ℕ) : ℚ :=
  let v := mainDiag F i j * maskQ (assembleMask nz mask3 i j)
  if v = 0 then 1 else v

/-- Final east coefficient `boundary_mask * east_diag` (petsc_.py line 166). -/
def cfEast (nz : ℕ) (mask3 : Mask3) (F : Fields) (i j : ℕ) : ℚ :=
  maskQ (assembleMask nz mask3 i j) * eastDiag F i j

/-- Final west coefficient `boundary_mask * west_diag` (petsc_.py line 167). -/
def cfWest (nz : ℕ) (mask3 : Mask3) (F : Fields) (i j : ℕ) : ℚ :=
  maskQ (assembleMask nz mask3 i j) * westDiag F i j

/-- Final north coefficient `boundary_mask * north_diag` (petsc_.py line 168). -/
def cfNorth (nz : ℕ) (mask3 : Mask3) (F : Fields) (i j : ℕ) : ℚ :=
  maskQ (assembleMask nz mask3 i j) * northDiag F i j

/-- Final south coefficient `boundary_mask * south_diag` (petsc_.py line 169). -/
def cfSouth (nz : ℕ) (mask3 : Mask3) (F : Fields) (i j : ℕ) : ℚ :=
  maskQ (assembleMask nz mask3 i j) * southDiag F i j

/-- Entry `j` of `boundary_scale["east"] = cf[1][-1, :]` (petsc_.py line 192):
the east coefficient at the last locally owned interior column.  The local
interior block has extent `m - 4`, so its last index is `m - 5`. -/
def facEast (m nz : ℕ) (mask3 : Mask3) (F : Fields) (j : ℕ) : ℚ :=
  cfEast nz mask3 F (m - 5) j

/-- Entry `j` of `boundary_scale["west"] = cf[2][0, :]` (petsc_.py line 193). -/
def facWest (nz : ℕ) (mask3 : Mask3) (F : Fields) (j : ℕ) : ℚ :=
  cfWest nz mask3 F 0 j

/-- Entry `i` of `boundary_scale["north"] = cf[3][:, -1]` (petsc_.py line 194). -/
def facNorth (n nz : ℕ) (mask3 : Mask3) (F : Fields) (i : ℕ) : ℚ :=
  cfNorth nz mask3 F i (n - 5)

/-- Entry `i` of `boundary_scale["south"] = cf[4][:, 0]` (petsc_.py line 195). -/
def facSouth (nz : ℕ) (mask3 : Mask3) (F : Fields) (i : ℕ) : ℚ :=
  cfSouth nz mask3 F i 0

/-- The error class named by the specification for an invalid grid
decomposition at construction time. -/
inductive ConfigurationError where
  | gridNotDivisible : ConfigurationError
deriving DecidableEq

/-- Per-axis ownership ranges passed to `PETSc.DMDA().create`
(petsc_.py lines 26-29): `(nx // px,) * px` for the x-axis and likewise
for the y-axis — a list of `px` blocks, each of size `nx / px` rounded
down.  No divisibility validation occurs anywhere in `__init__`. -/
def ownershipRanges (nx px : ℕ) : List ℕ :=
  List.replicate px (nx / px)

/-- Embedding of the decomposition part of `PETScSolver.__init__`
(petsc_.py lines 19-30).  The result type allows a construction-time
`ConfigurationError`, but the source performs no check of `nx % px` or
`ny % py`, so the function always succeeds and simply records the
truncated ownership ranges. -/
def petscSolverCreate (nx ny px py : ℕ) :
    Except ConfigurationError (List ℕ × List ℕ) :=
  Except.ok (ownershipRanges nx px, ownershipRanges ny py)

/-- Start offset of ownership block `t`: the sum of the sizes of the
blocks before it in the ownership-range list. -/
def blockStart (nx px t : ℕ) : ℕ :=
  ((ownershipRanges nx px).take t).sum

/-- Global x-indices covered by ownership block `t` along an axis of
global extent `nx` split over `px` processes. -/
def ownsIndex (nx px t i : ℕ) : Prop :=
  blockStart nx px t ≤ i ∧ i < blockStart nx px (t + 1)

instance (nx px t i : ℕ) : Decidable (ownsIndex nx px t i) := by
  unfold ownsIndex; infer_instance

/-- Global cell `(c.1, c.2)` belongs to the sub-domain of the process with
logical coordinate `(t.1, t.2)` in the process grid. -/
def ownsCell (nx ny px py : ℕ) (t c : ℕ × ℕ) : Prop :=
  ownsIndex nx px t.1 c.1 ∧ ownsIndex ny py t.2 c.2

instance (nx ny px py : ℕ) (t c : ℕ × ℕ) : Decidable (ownsCell nx ny px py t c) := by
  unfold ownsCell; infer_instance

/-- Dirichlet correction at the east edge (petsc_.py line 58):
`rhs = update_add(rhs, at[-3, 2:-2], -rhs[-2, 2:-2] * boundary_fac["east"])`.
The target cell sits in padded row `m - 3` (the last interior row), the
value folded in is read from padded row `m - 2`, and column `j` of the
interior slice multiplies entry `j - 2` of the coefficient vector. -/
def injectEast (m n : ℕ) (fE : Arr1) (rhs : Arr2) : Arr2 := fun i j =>
  if i = m - 3 ∧ 2 ≤ j ∧ j < n - 2 then rhs i j - rhs (m - 2) j * fE (j - 2) else rhs i j

/-- Dirichlet correction at the west edge (petsc_.py line 61):
`rhs = update_add(rhs, at[2, 2:-2], -rhs[1, 2:-2] * boundary_fac["west"])`. -/
def injectWest (n : ℕ) (fW : Arr1) (rhs : Arr2) : Arr2 := fun i j =>
  if i = 2 ∧ 2 ≤ j ∧ j < n - 2 then rhs i j - rhs 1 j * fW (j - 2) else rhs i j

/-- Dirichlet correction at the north edge (petsc_.py line 64):
`rhs = update_add(rhs, at[2:-2, -3], -rhs[2:-2, -2] * boundary_fac["north"])`. -/
def injectNorth (m n : ℕ) (fN : Arr1) (rhs : Arr2) : Arr2 := fun i j =>
  if 2 ≤ i ∧ i < m - 2 ∧ j = n - 3 then rhs i j - rhs i (n - 2) * fN (i - 2) else rhs i j

/-- Dirichlet correction at the south edge (petsc_.py line 67):
`rhs = update_add(rhs, at[2:-2, 2], -rhs[2:-2, 1] * boundary_fac["south"])`. -/
def injectSouth (m : ℕ) (fS : Arr1) (rhs : Arr2) : Arr2 := fun i j =>
  if 2 ≤ i ∧ i < m - 2 ∧ j = 2 then rhs i j - rhs i 1 * fS (i - 2) else rhs i j

/-- The boundary-injection preamble of `_petsc_solver` (petsc_.py lines
55-67): east and west corrections run only when `enable_cyclic_x` is
false and this process owns the corresponding x-edge of the process grid
(`proc_idx[0] == num_proc[0] - 1`, resp. `== 0`); north and south
corrections run whenever the process owns the corresponding y-edge,
regardless of periodicity.  The four updates are applied in source
order. -/
def petscInjectRhs (m n : ℕ) (cyclicX : Bool) (ip jp px py : ℕ)
    (fE fW fN fS : Arr1) (rhs : Arr2) : Arr2 :=
  let r1 := if cyclicX = false ∧ ip = px - 1 then injectEast m n fE rhs else rhs
  let r2 := if cyclicX = false ∧ ip = 0 then injectWest n fW r1 else r1
  let r3 := if jp = py - 1 then injectNorth m n fN r2 else r2
  if jp = 0 then injectSouth m fS r3 else r3

/-- Data read back from the external Krylov solver after
`self._ksp.solve(...)`: the solution values on the owned interior block,
`getConvergedReason()` and `getIterationNumber()`. -/
structure KrylovResult where
  sol : Arr2
  info : ℤ
  iterations : ℕ

/-- The warning text of petsc_.py line 78, with the two interpolated
values. -/
def nonConvergenceWarning (iterations : ℕ) (info : ℤ) : String :=
  "Streamfunction solver did not converge after " ++ toString iterations ++
    " iterations (error code: " ++ toString info ++ ")"

/-- Embedding of `PETScSolver._petsc_solver` (petsc_.py lines 52-80):
inject the Dirichlet corrections into the rhs, hand the interior slices
`rhs[2:-2, 2:-2]` and `x0[2:-2, 2:-2]` to the external Krylov solver
`ksp`, emit the non-convergence warning when the convergence code is
negative, and return the solver iterate unconditionally.  The second
component collects the emitted log messages. -/
def petscSolverRun (m n : ℕ) (cyclicX : Bool) (ip jp px py : ℕ)
    (fE fW fN fS : Arr1) (ksp : Arr2 → Arr2 → KrylovResult)
    (rhs x0 : Arr2) : Arr2 × List String :=
  let rhs2 := petscInjectRhs m n cyclicX ip jp px py fE fW fN fS rhs
  let r := ksp (fun i j => rhs2 (i + 2) (j + 2)) (fun i j => x0 (i + 2) (j + 2))
  (r.sol, if r.info < 0 then [nonConvergenceWarning r.iterations r.info] else [])

/-- The rhs-masking step of `solve` (petsc_.py lines 97-98):
`boundary_mask = npx.all(~vs.boundary_mask, axis=2)` over the full padded
array, then `rhs = npx.where(boundary_mask, rhs, boundary_val)` — a cell
keeps the caller rhs exactly when no level of `vs.boundary_mask` is set
there, and receives `boundary_val` otherwise. -/
def solveRhsMask (nz : ℕ) (mask3 : Mask3) (rhs bval : Arr2) : Arr2 := fun i j =>
  if decide (∀ k < nz, mask3 i j k = false) then rhs i j else bval i j

/-- Embedding of `PETScSolver.solve` (petsc_.py lines 82-102).
`enforce` stands for the external utility
`utilities.enforce_boundaries(x0, settings.enable_cyclic_x)`; `ksp` is
the external Krylov solve.  The boundary coefficient vectors are the
ones extracted by `_assemble_poisson_matrix` at construction.  Steps, in
source order: default `boundary_val` to `x0` when it is `none`, apply
`enforce` to `x0`, mask the rhs, run `_petsc_solver`, and write the
linear solution back into the interior slice `[2:-2, 2:-2]` of the
masked rhs.  The second component carries the warnings emitted by
`_petsc_solver`. -/
def solveFacade (m n nz : ℕ) (cyclicX : Bool) (ip jp px py : ℕ)
    (F : Fields) (mask3 : Mask3) (enforce : Arr2 → Bool → Arr2)
    (ksp : Arr2 → Arr2 → KrylovResult)
    (rhs x0 : Arr2) (boundaryVal : Option Arr2) : Arr2 × List String :=
  let bval := boundaryVal.getD x0
  let x0e := enforce x0 cyclicX
  let rhsM := solveRhsMask nz mask3 rhs bval
  let res := petscSolverRun m n cyclicX ip jp px py
    (facEast m nz mask3 F) (facWest nz mask3 F) (facNorth n nz mask3 F) (facSouth nz mask3 F)
    ksp rhsM x0e
  (fun i j =>
      if 2 ≤ i ∧ i < m - 2 ∧ 2 ≤ j ∧ j < n - 2 then res.1 (i - 2) (j - 2) else rhsM i j,
    res.2)

/-- Application of one assembled stencil row at interior cell `(i, j)` to
a field `x` of interior values: the row written by the loop of
petsc_.py lines 179-187, with column offsets
`{(0,0), (1,0), (-1,0), (0,1), (0,-1)}`. -/
def stencilRow (nz : ℕ) (mask3 : Mask3) (F : Fields) (x : Arr2) (i j : ℕ) : ℚ :=
  cfMain nz mask3 F i j * x i j + cfEast nz mask3 F i j * x (i + 1) j +
    cfWest nz mask3 F i j * x (i - 1) j + cfNorth nz mask3 F i j * x i (j + 1) +
    cfSouth nz mask3 F i j * x i (j - 1)

/-! ### Shared concrete instances for witnesses and counterexamples -/

/-- Uniform coefficient fields with every entry equal to 1. -/
def onesFields : Fields :=
  ⟨fun _ _ => 1, fun _ _ => 1, fun _ => 1, fun _ => 1, fun _ => 1, fun _ => 1,
    fun _ => 1, fun _ => 1⟩

/-- Mask field with no level ever set (fully unmasked water domain). -/
def noMask3 : Mask3 := fun _ _ _ => false

/-- Mask field whose only set entry is level 0 of column (0, 0): that
column is partially, but not fully, masked when the vertical extent is
at least 2. -/
def partialMask3 : Mask3 := fun i j k => decide (i = 0 ∧ j = 0 ∧ k = 0)

/-- Mask field with every level of every column set (fully land). -/
def allMask3 : Mask3 := fun _ _ _ => true

/-- Mask field that fully masks exactly the column at padded index
(2, 2) — the single interior cell of a 5 × 5 padded grid. -/
def maskCell22 : Mask3 := fun i j _ => decide (i = 2 ∧ j = 2)

/-! ### Claim theorems -/

/-- C6: for every owned interior cell the center coefficient before
masking equals the negative of the sum of the four off-diagonal terms;
the east and west terms carry a `1 / cosu ^ 2` factor and the north and
south terms a `cost / cosu` factor (visible in the definitions of
`eastDiag`, `westDiag`, `northDiag`, `southDiag`); and on unmasked
cells each assembled off-diagonal entry equals the corresponding
positive term. -/
theorem claimC6_center_balance (nz : ℕ) (mask3 : Mask3) (F : Fields) (i j : ℕ) :
    mainDiag F i j =
      -(eastDiag F i j + westDiag F i j + northDiag F i j + southDiag F i j) ∧
    (assembleMask nz mask3 i j = true →
      cfEast nz mask3 F i j = eastDiag F i j ∧
      cfWest nz mask3 F i j = westDiag F i j ∧
      cfNorth nz mask3 F i j = northDiag F i j ∧
      cfSouth nz mask3 F i j = southDiag F i j) := by
  constructor
  · unfold mainDiag eastDiag westDiag northDiag southDiag
    ring
  · intro h
    simp [cfEast, cfWest, cfNorth, cfSouth, maskQ, h]

/-- Witness for C6 at uniform unit fields, an unmasked grid and the
cell (0, 0). -/
theorem claimC6_center_balance_witness :
    mainDiag onesFields 0 0 =
      -(eastDiag onesFields 0 0 + westDiag onesFields 0 0 +
        northDiag onesFields 0 0 + southDiag onesFields 0 0) ∧
    cfEast 1 noMask3 onesFields 0 0 = eastDiag onesFields 0 0 := by
  obtain ⟨h1, h2⟩ := claimC6_center_balance 1 noMask3 onesFields 0 0
  exact ⟨h1, (h2 (by decide)).1⟩

/-- C9: with uniform coefficient fields on a fully unmasked grid, the
assembled operator is symmetric: the east coefficient of cell (i, j)
equals the west coefficient of cell (i+1, j), and the north coefficient
of cell (i, j) equals the south coefficient of cell (i, j+1). -/
theorem claimC9_uniform_symmetry (nz : ℕ) (mask3 : Mask3) (F : Fields)
    (a b c d e f g h0 : ℚ)
    (hmask : ∀ i j k, mask3 i j k = false)
    (hhvr : ∀ i j, F.hvr i j = a) (hhur : ∀ i j, F.hur i j = b)
    (hdxu : ∀ i, F.dxu i = c) (hdxt : ∀ i, F.dxt i = d)
    (hdyu : ∀ i, F.dyu i = e) (hdyt : ∀ i, F.dyt i = f)
    (hcosu : ∀ i, F.cosu i = g) (hcost : ∀ i, F.cost i = h0)
    (i j : ℕ) :
    cfEast nz mask3 F i j = cfWest nz mask3 F (i + 1) j ∧
    cfNorth nz mask3 F i j = cfSouth nz mask3 F i (j + 1) := by
  have hm : ∀ i' j', assembleMask nz mask3 i' j' = true := by
    intro i' j'
    simp [assembleMask, hmask]
  constructor
  · simp [cfEast, cfWest, eastDiag, westDiag, hm, maskQ, hhvr, hdxu, hdxt, hcosu]
  · simp [cfNorth, cfSouth, northDiag, southDiag, hm, maskQ, hhur, hdyu, hdyt, hcosu, hcost]

/-- Witness for C9 at uniform unit fields on a fully unmasked grid. -/
theorem claimC9_uniform_symmetry_witness :
    cfEast 1 noMask3 onesFields 0 0 = cfWest 1 noMask3 onesFields 1 0 ∧
    cfNorth 1 noMask3 onesFields 0 0 = cfSouth 1 noMask3 onesFields 0 1 :=
  claimC9_uniform_symmetry 1 noMask3 onesFields 1 1 1 1 1 1 1 1
    (fun _ _ _ => rfl) (fun _ _ => rfl) (fun _ _ => rfl) (fun _ => rfl) (fun _ => rfl)
    (fun _ => rfl) (fun _ => rfl) (fun _ => rfl) (fun _ => rfl) 0 0

/-- C3 counterexample: with nx = 5 not divisible by px = 2 (and ny = 4,
py = 2), `PETScSolver.__init__` does not fail with a
`ConfigurationError`: it succeeds and records the truncated ownership
ranges `(2, 2)` per axis, although 2 does not divide 5. -/
theorem claimC3_counterexample :
    petscSolverCreate 5 4 2 2 = Except.ok ([2, 2], [2, 2]) ∧ ¬(2 ∣ 5) := by
  constructor
  · rfl
  · decide

/-- C3 (amended): solver construction never raises a
`ConfigurationError`; it always succeeds with px blocks of size nx / px
(rounded down) per axis, and whenever nx is not evenly divisible by a
positive px those blocks sum to strictly less than nx (silent
truncation of the domain). -/
theorem claimC3_amended_no_divisibility_check (nx ny px py : ℕ) :
    petscSolverCreate nx ny px py =
      Except.ok (ownershipRanges nx px, ownershipRanges ny py) ∧
    (0 < px → ¬px ∣ nx → (ownershipRanges nx px).sum < nx) := by
  refine ⟨rfl, fun hpx hdvd => ?_⟩
  have hsum : (ownershipRanges nx px).sum = px * (nx / px) := by
    simp [ownershipRanges, List.sum_replicate, smul_eq_mul]
  rw [hsum]
  have hmod : nx % px ≠ 0 := fun h => hdvd (Nat.dvd_of_mod_eq_zero h)
  have h1 : nx % px + px * (nx / px) = nx := Nat.mod_add_div nx px
  omega

/-- Witness for the amended C3 at nx = 5, px = 2. -/
theorem claimC3_amended_witness :
    petscSolverCreate 5 4 2 2 =
      Except.ok (ownershipRanges 5 2, ownershipRanges 4 2) ∧
    (ownershipRanges 5 2).sum < 5 := by
  obtain ⟨h1, h2⟩ := claimC3_amended_no_divisibility_check 5 4 2 2
  exact ⟨h1, h2 (by decide) (by decide)⟩

/-- C4 counterexample: at a partially masked column (level 0 masked,
level 1 not, so the column is not fully masked), the rhs-masking step
substitutes `boundary_val` (here 9) instead of keeping the caller rhs
(here 5), contradicting the claim that only fully masked cells receive
`boundary_val` while every other cell keeps its rhs value. -/
theorem claimC4_counterexample :
    solveRhsMask 2 partialMask3 (fun _ _ => 5) (fun _ _ => 9) 0 0 = 9 ∧
    partialMask3 0 0 1 = false ∧ (9 : ℚ) ≠ 5 := by
  refine ⟨?_, by decide, by norm_num⟩
  simp [solveRhsMask, partialMask3]

/-- C4 (amended): the rhs-masking step of `solve` keeps the caller rhs
exactly at cells where NO level of the mask is set, and substitutes
`boundary_val` at every cell where at least one level is set (whether
or not the column is fully masked). -/
theorem claimC4_amended_any_level (nz : ℕ) (mask3 : Mask3) (rhs bval : Arr2) (i j : ℕ) :
    ((∀ k < nz, mask3 i j k = false) → solveRhsMask nz mask3 rhs bval i j = rhs i j) ∧
    ((∃ k, k < nz ∧ mask3 i j k = true) → solveRhsMask nz mask3 rhs bval i j = bval i j) := by
  constructor
  · intro h
    unfold solveRhsMask
    rw [if_pos (decide_eq_true h)]
  · rintro ⟨k, hk, hm⟩
    have hno : ¬(∀ k < nz, mask3 i j k = false) := by
      intro hall
      have := hall k hk
      rw [hm] at this
      exact absurd this (by simp)
    unfold solveRhsMask
    rw [if_neg]
    simp [hno]

/-- Witness for the amended C4: a clean cell keeps the rhs value 5, the
partially masked cell (0, 0) receives the boundary value 9. -/
theorem claimC4_amended_witness :
    solveRhsMask 2 partialMask3 (fun _ _ => 5) (fun _ _ => 9) 1 1 = 5 ∧
    solveRhsMask 2 partialMask3 (fun _ _ => 5) (fun _ _ => 9) 0 0 = 9 :=
  ⟨(claimC4_amended_any_level 2 partialMask3 _ _ 1 1).1 (by decide),
   (claimC4_amended_any_level 2 partialMask3 _ _ 0 0).2 ⟨0, by decide, by decide⟩⟩

/-! ### Ownership-range helper lemmas -/

theorem blockStart_eq (nx px t : ℕ) : blockStart nx px t = min t px * (nx / px) := by
  simp [blockStart, ownershipRanges, List.take_replicate, List.sum_replicate, smul_eq_mul]

theorem ownsIndex_iff (nx px t i : ℕ) :
    ownsIndex nx px t i ↔
      min t px * (nx / px) ≤ i ∧ i < min (t + 1) px * (nx / px) := by
  unfold ownsIndex
  rw [blockStart_eq, blockStart_eq]

theorem ownsIndex_facts (nx px t i : ℕ) (h : ownsIndex nx px t i) :
    t < px ∧ 0 < nx / px ∧ t * (nx / px) ≤ i ∧ i < (t + 1) * (nx / px) := by
  rw [ownsIndex_iff] at h
  have hq : 0 < nx / px := by
    rcases Nat.eq_zero_or_pos (nx / px) with h0 | h0
    · rw [h0] at h
      simp at h
    · exact h0
  have ht : t < px := by
    by_contra hc
    push_neg at hc
    rw [min_eq_right hc, min_eq_right (le_trans hc (Nat.le_succ t))] at h
    omega
  rw [min_eq_left (le_of_lt ht), min_eq_left (Nat.succ_le_of_lt ht)] at h
  exact ⟨ht, hq, h.1, h.2⟩

theorem ownsIndex_unique (nx px t s i : ℕ)
    (h1 : ownsIndex nx px t i) (h2 : ownsIndex nx px s i) : t = s := by
  obtain ⟨-, hq1, hlo1, hhi1⟩ := ownsIndex_facts nx px t i h1
  obtain ⟨-, -, hlo2, hhi2⟩ := ownsIndex_facts nx px s i h2
  have e1 : i / (nx / px) = t := Nat.div_eq_of_lt_le hlo1 hhi1
  have e2 : i / (nx / px) = s := Nat.div_eq_of_lt_le hlo2 hhi2
  omega

theorem ownsIndex_cover (nx px i : ℕ) (hd : px ∣ nx) (hi : i < nx) :
    ∃ t, t < px ∧ ownsIndex nx px t i := by
  have hpx : 0 < px := by
    rcases Nat.eq_zero_or_pos px with h0 | h0
    · subst h0
      obtain ⟨q, hq⟩ := hd
      omega
    · exact h0
  have hmul : px * (nx / px) = nx := Nat.mul_div_cancel' hd
  have hq : 0 < nx / px := by
    rcases Nat.eq_zero_or_pos (nx / px) with h0 | h0
    · rw [h0, Nat.mul_zero] at hmul
      omega
    · exact h0
  refine ⟨i / (nx / px), ?_, ?_⟩
  · rw [Nat.div_lt_iff_lt_mul hq]
    omega
  · rw [ownsIndex_iff]
    have ht : i / (nx / px) < px := by
      rw [Nat.div_lt_iff_lt_mul hq]
      omega
    rw [min_eq_left (le_of_lt ht), min_eq_left (Nat.succ_le_of_lt ht)]
    constructor
    · exact Nat.div_mul_le_self i (nx / px)
    · have hdm : nx / px * (i / (nx / px)) + i % (nx / px) = i := Nat.div_add_mod i (nx / px)
      have hlt : i % (nx / px) < nx / px := Nat.mod_lt i hq
      have hexp : (i / (nx / px) + 1) * (nx / px) = nx / px * (i / (nx / px)) + nx / px := by
        ring
      simp only [Nat.succ_eq_add_one]
      omega

theorem ownsIndex_in_range (nx px t i : ℕ) (hd : px ∣ nx)
    (h : ownsIndex nx px t i) : i < nx := by
  obtain ⟨ht, hq, -, hhi⟩ := ownsIndex_facts nx px t i h
  have hmul : px * (nx / px) = nx := Nat.mul_div_cancel' hd
  have : (t + 1) * (nx / px) ≤ px * (nx / px) :=
    Nat.mul_le_mul_right _ (Nat.succ_le_of_lt ht)
  omega

/-- C7 counterexample: with nx = 5 split over px = 2 processes, the
two ownership blocks of size 5 / 2 = 2 cover only the indices 0..3;
global index 4 lies in no block, so the union of ownership ranges does
not reconstruct [0, nx) for this grid configuration. -/
theorem claimC7_counterexample :
    ¬ownsIndex 5 2 0 4 ∧ ¬ownsIndex 5 2 1 4 ∧ 4 < 5 := by
  refine ⟨by decide, by decide, by decide⟩

/-- C7 (amended): the per-process ownership blocks are contiguous
(each block starts where the previous one ends) and non-overlapping for
every configuration, and whenever nx is evenly divisible by px and ny
by py their union reconstructs the global index set [0, nx) × [0, ny)
exactly, with no gap. -/
theorem claimC7_amended_partition (nx ny px py : ℕ) :
    (∀ t, t < px → blockStart nx px (t + 1) = blockStart nx px t + nx / px) ∧
    (∀ t s i, ownsIndex nx px t i → ownsIndex nx px s i → t = s) ∧
    (px ∣ nx → py ∣ ny → ∀ c : ℕ × ℕ, c.1 < nx → c.2 < ny →
      ∃ t : ℕ × ℕ, t.1 < px ∧ t.2 < py ∧ ownsCell nx ny px py t c) ∧
    (px ∣ nx → py ∣ ny → ∀ t c : ℕ × ℕ, ownsCell nx ny px py t c →
      c.1 < nx ∧ c.2 < ny) := by
  refine ⟨?_, ?_, ?_, ?_⟩
  · intro t ht
    rw [blockStart_eq, blockStart_eq,
      min_eq_left (le_of_lt ht), min_eq_left (Nat.succ_le_of_lt ht)]
    simp only [Nat.succ_eq_add_one]
    ring
  · intro t s i h1 h2
    exact ownsIndex_unique nx px t s i h1 h2
  · intro hdx hdy c hc1 hc2
    obtain ⟨t1, ht1, ho1⟩ := ownsIndex_cover nx px c.1 hdx hc1
    obtain ⟨t2, ht2, ho2⟩ := ownsIndex_cover ny py c.2 hdy hc2
    exact ⟨(t1, t2), ht1, ht2, ho1, ho2⟩
  · intro hdx hdy t c hc
    exact ⟨ownsIndex_in_range nx px t.1 c.1 hdx hc.1,
      ownsIndex_in_range ny py t.2 c.2 hdy hc.2⟩

/-- Witness for the amended C7 on a 4 × 6 grid over a 2 × 3 process
grid: coverage of the cell (3, 5). -/
theorem claimC7_amended_witness :
    (2 ∣ 4) ∧ (3 ∣ 6) ∧
    (∃ t : ℕ × ℕ, t.1 < 2 ∧ t.2 < 3 ∧ ownsCell 4 6 2 3 t (3, 5)) := by
  refine ⟨by decide, by decide, ?_⟩
  exact (claimC7_amended_partition 4 6 2 3).2.2.1 (by decide) (by decide) (3, 5)
    (by decide) (by decide)

/-! ### Pointwise behaviour of the four injection steps -/

theorem injectEast_at (m n : ℕ) (fE : Arr1) (rhs : Arr2) (j : ℕ)
    (h2 : 2 ≤ j) (h3 : j < n - 2) :
    injectEast m n fE rhs (m - 3) j = rhs (m - 3) j - rhs (m - 2) j * fE (j - 2) := by
  unfold injectEast
  rw [if_pos ⟨rfl, h2, h3⟩]

theorem injectEast_ne_row (m n : ℕ) (fE : Arr1) (rhs : Arr2) (i j : ℕ) (h : i ≠ m - 3) :
    injectEast m n fE rhs i j = rhs i j := by
  unfold injectEast
  rw [if_neg (fun hc => h hc.1)]

theorem injectEast_ne_col (m n : ℕ) (fE : Arr1) (rhs : Arr2) (i j : ℕ)
    (h : ¬(2 ≤ j ∧ j < n - 2)) :
    injectEast m n fE rhs i j = rhs i j := by
  unfold injectEast
  rw [if_neg (fun hc => h hc.2)]

theorem injectWest_at (n : ℕ) (fW : Arr1) (rhs : Arr2) (j : ℕ)
    (h2 : 2 ≤ j) (h3 : j < n - 2) :
    injectWest n fW rhs 2 j = rhs 2 j - rhs 1 j * fW (j - 2) := by
  unfold injectWest
  rw [if_pos ⟨rfl, h2, h3⟩]

theorem injectWest_ne_row (n : ℕ) (fW : Arr1) (rhs : Arr2) (i j : ℕ) (h : i ≠ 2) :
    injectWest n fW rhs i j = rhs i j := by
  unfold injectWest
  rw [if_neg (fun hc => h hc.1)]

theorem injectWest_ne_col (n : ℕ) (fW : Arr1) (rhs : Arr2) (i j : ℕ)
    (h : ¬(2 ≤ j ∧ j < n - 2)) :
    injectWest n fW rhs i j = rhs i j := by
  unfold injectWest
  rw [if_neg (fun hc => h hc.2)]

theorem injectNorth_at (m n : ℕ) (fN : Arr1) (rhs : Arr2) (i : ℕ)
    (h1 : 2 ≤ i) (h2 : i < m - 2) :
    injectNorth m n fN rhs i (n - 3) = rhs i (n - 3) - rhs i (n - 2) * fN (i - 2) := by
  unfold injectNorth
  rw [if_pos ⟨h1, h2, rfl⟩]

theorem injectNorth_ne_col (m n : ℕ) (fN : Arr1) (rhs : Arr2) (i j : ℕ) (h : j ≠ n - 3) :
    injectNorth m n fN rhs i j = rhs i j := by
  unfold injectNorth
  rw [if_neg (fun hc => h hc.2.2)]

theorem injectSouth_at (m : ℕ) (fS : Arr1) (rhs : Arr2) (i : ℕ)
    (h1 : 2 ≤ i) (h2 : i < m - 2) :
    injectSouth m fS rhs i 2 = rhs i 2 - rhs i 1 * fS (i - 2) := by
  unfold injectSouth
  rw [if_pos ⟨h1, h2, rfl⟩]

theorem injectSouth_ne_col (m : ℕ) (fS : Arr1) (rhs : Arr2) (i j : ℕ) (h : j ≠ 2) :
    injectSouth m fS rhs i j = rhs i j := by
  unfold injectSouth
  rw [if_neg (fun hc => h hc.2.2)]

/-- A conditionally applied array transformation leaves a cell unchanged
when the transformation itself leaves that cell unchanged. -/
theorem apply_ite_arr (c : Prop) [Decidable c] (f : Arr2 → Arr2) (r : Arr2) (i j : ℕ)
    (h : c → ∀ s : Arr2, f s i j = s i j) :
    (if c then f r else r) i j = r i j := by
  by_cases hc : c
  · rw [if_pos hc]
    exact h hc r
  · rw [if_neg hc]

/-- C1: for a process owning an x-edge the boundary injection subtracts
`neighbor_rhs_value * boundary_coefficient` from the edge rhs cell —
only when the x-axis is not periodic — and likewise at owned y-edges
regardless of periodicity.  The edge rhs cell is the last interior cell
of the edge (padded index `m - 3` for east, `2` for west, `n - 3` for
north, `2` for south); the neighbour value is read one cell further out
along the axis (padded index `m - 2`, `1`, `n - 2`, `1` respectively),
and interior column `j` of the edge multiplies entry `j - 2` of the
boundary coefficient vector.  Part five states that with a periodic
x-axis the east and west corrections are skipped entirely.  The
remaining side conditions only keep the inspected cell clear of the
other three edge updates of the same call. -/
theorem claimC1_boundary_injection (m n ip jp px py : ℕ)
    (fE fW fN fS : Arr1) (rhs : Arr2) :
    (∀ j, ip = px - 1 → 2 ≤ j → j < n - 2 → 6 ≤ m →
      (jp = py - 1 → j ≠ n - 3) → (jp = 0 → j ≠ 2) →
      petscInjectRhs m n false ip jp px py fE fW fN fS rhs (m - 3) j
        = rhs (m - 3) j - rhs (m - 2) j * fE (j - 2)) ∧
    (∀ j, ip = 0 → 2 ≤ j → j < n - 2 → 6 ≤ m →
      (jp = py - 1 → j ≠ n - 3) → (jp = 0 → j ≠ 2) →
      petscInjectRhs m n false ip jp px py fE fW fN fS rhs 2 j
        = rhs 2 j - rhs 1 j * fW (j - 2)) ∧
    (∀ cyclicX i, jp = py - 1 → 2 ≤ i → i < m - 2 → 6 ≤ n →
      (cyclicX = false → ip = px - 1 → i ≠ m - 3) →
      (cyclicX = false → ip = 0 → i ≠ 2) →
      petscInjectRhs m n cyclicX ip jp px py fE fW fN fS rhs i (n - 3)
        = rhs i (n - 3) - rhs i (n - 2) * fN (i - 2)) ∧
    (∀ cyclicX i, jp = 0 → 2 ≤ i → i < m - 2 → 6 ≤ n →
      (cyclicX = false → ip = px - 1 → i ≠ m - 3) →
      (cyclicX = false → ip = 0 → i ≠ 2) →
      petscInjectRhs m n cyclicX ip jp px py fE fW fN fS rhs i 2
        = rhs i 2 - rhs i 1 * fS (i - 2)) ∧
    (petscInjectRhs m n true ip jp px py fE fW fN fS rhs =
      (if jp = 0 then injectSouth m fS else id)
        ((if jp = py - 1 then injectNorth m n fN else id) rhs)) := by
  refine ⟨?_, ?_, ?_, ?_, ?_⟩
  · intro j hip hj2 hjn hm hN hS
    have hrow : m - 3 ≠ 2 := by omega
    simp only [petscInjectRhs]
    rw [if_pos (show (True ∧ ip = px - 1) from ⟨trivial, hip⟩)]
    rw [apply_ite_arr (jp = 0) (injectSouth m fS) _ (m - 3) j
      (fun hjp s => injectSouth_ne_col m fS s (m - 3) j (hS hjp))]
    rw [apply_ite_arr (jp = py - 1) (injectNorth m n fN) _ (m - 3) j
      (fun hjp s => injectNorth_ne_col m n fN s (m - 3) j (hN hjp))]
    rw [apply_ite_arr (True ∧ ip = 0) (injectWest n fW) _ (m - 3) j
      (fun _ s => injectWest_ne_row n fW s (m - 3) j hrow)]
    exact injectEast_at m n fE rhs j hj2 hjn
  · intro j hip hj2 hjn hm hN hS
    have hrow : (2 : ℕ) ≠ m - 3 := by omega
    have hrow1 : (1 : ℕ) ≠ m - 3 := by omega
    simp only [petscInjectRhs]
    rw [apply_ite_arr (jp = 0) (injectSouth m fS) _ 2 j
      (fun hjp s => injectSouth_ne_col m fS s 2 j (hS hjp))]
    rw [apply_ite_arr (jp = py - 1) (injectNorth m n fN) _ 2 j
      (fun hjp s => injectNorth_ne_col m n fN s 2 j (hN hjp))]
    rw [if_pos (show (True ∧ ip = 0) from ⟨trivial, hip⟩)]
    rw [injectWest_at n fW _ j hj2 hjn]
    rw [apply_ite_arr (True ∧ ip = px - 1) (injectEast m n fE) rhs 2 j
      (fun _ s => injectEast_ne_row m n fE s 2 j hrow)]
    rw [apply_ite_arr (True ∧ ip = px - 1) (injectEast m n fE) rhs 1 j
      (fun _ s => injectEast_ne_row m n fE s 1 j hrow1)]
  · intro cyclicX i hjp hi2 him hn hE hW
    have hc1 : n - 3 ≠ 2 := by omega
    have hc2 : ¬(2 ≤ n - 2 ∧ n - 2 < n - 2) := by omega
    simp only [petscInjectRhs]
    rw [apply_ite_arr (jp = 0) (injectSouth m fS) _ i (n - 3)
      (fun _ s => injectSouth_ne_col m fS s i (n - 3) hc1)]
    rw [if_pos hjp]
    rw [injectNorth_at m n fN _ i hi2 him]
    rw [apply_ite_arr (cyclicX = false ∧ ip = 0) (injectWest n fW) _ i (n - 3)
      (fun hc s => injectWest_ne_row n fW s i (n - 3) (hW hc.1 hc.2))]
    rw [apply_ite_arr (cyclicX = false ∧ ip = px - 1) (injectEast m n fE) rhs i (n - 3)
      (fun hc s => injectEast_ne_row m n fE s i (n - 3) (hE hc.1 hc.2))]
    rw [apply_ite_arr (cyclicX = false ∧ ip = 0) (injectWest n fW) _ i (n - 2)
      (fun _ s => injectWest_ne_col n fW s i (n - 2) hc2)]
    rw [apply_ite_arr (cyclicX = false ∧ ip = px - 1) (injectEast m n fE) rhs i (n - 2)
      (fun _ s => injectEast_ne_col m n fE s i (n - 2) hc2)]
  · intro cyclicX i hjp hi2 him hn hE hW
    have hc1 : (2 : ℕ) ≠ n - 3 := by omega
    have hc1' : (1 : ℕ) ≠ n - 3 := by omega
    have hc2 : ¬(2 ≤ (1 : ℕ) ∧ (1 : ℕ) < n - 2) := by omega
    simp only [petscInjectRhs]
    rw [if_pos hjp]
    rw [injectSouth_at m fS _ i hi2 him]
    rw [apply_ite_arr (jp = py - 1) (injectNorth m n fN) _ i 2
      (fun _ s => injectNorth_ne_col m n fN s i 2 hc1)]
    rw [apply_ite_arr (cyclicX = false ∧ ip = 0) (injectWest n fW) _ i 2
      (fun hc s => injectWest_ne_row n fW s i 2 (hW hc.1 hc.2))]
    rw [apply_ite_arr (cyclicX = false ∧ ip = px - 1) (injectEast m n fE) rhs i 2
      (fun hc s => injectEast_ne_row m n fE s i 2 (hE hc.1 hc.2))]
    rw [apply_ite_arr (jp = py - 1) (injectNorth m n fN) _ i 1
      (fun _ s => injectNorth_ne_col m n fN s i 1 hc1')]
    rw [apply_ite_arr (cyclicX = false ∧ ip = 0) (injectWest n fW) _ i 1
      (fun _ s => injectWest_ne_col n fW s i 1 hc2)]
    rw [apply_ite_arr (cyclicX = false ∧ ip = px - 1) (injectEast m n fE) rhs i 1
      (fun _ s => injectEast_ne_col m n fE s i 1 hc2)]
  · simp only [petscInjectRhs]
    have h1 : ¬(true = false ∧ ip = px - 1) := by simp
    have h2 : ¬(true = false ∧ ip = 0) := by simp
    rw [if_neg h1, if_neg h2]
    by_cases hN : jp = py - 1 <;> by_cases hS : jp = 0 <;> simp [hN, hS, ite_apply]

/-- Witness for C1, realising the boundary-injection scenario of the
specification: single process, east edge owned, boundary coefficient
vector constantly 2, neighbour rhs value 3 at the cell one step outward
of the edge cell — the edge rhs cell at padded index (m - 3, 4) = (5, 4)
is reduced by exactly 3 * 2 = 6. -/
theorem claimC1_witness :
    petscInjectRhs 8 8 false 0 0 1 1 (fun _ => 2) (fun _ => 2) (fun _ => 2) (fun _ => 2)
      (fun _ _ => 3) 5 4 = 3 - 3 * 2 := by
  have h := (claimC1_boundary_injection 8 8 0 0 1 1 (fun _ => 2) (fun _ => 2) (fun _ => 2)
      (fun _ => 2) (fun _ _ => 3)).1 4 rfl (by decide) (by decide) (by decide)
      (fun _ => by decide) (fun _ => by decide)
  simpa using h

/-! ### Injection steps leave a cell unchanged when the boundary
coefficient vanishes there -/

theorem injectEast_preserve (m n : ℕ) (fE : Arr1) (rhs : Arr2) (i j : ℕ)
    (h : i = m - 3 → fE (j - 2) = 0) :
    injectEast m n fE rhs i j = rhs i j := by
  unfold injectEast
  by_cases hc : i = m - 3 ∧ 2 ≤ j ∧ j < n - 2
  · rw [if_pos hc, h hc.1]
    ring
  · rw [if_neg hc]

theorem injectWest_preserve (n : ℕ) (fW : Arr1) (rhs : Arr2) (i j : ℕ)
    (h : i = 2 → fW (j - 2) = 0) :
    injectWest n fW rhs i j = rhs i j := by
  unfold injectWest
  by_cases hc : i = 2 ∧ 2 ≤ j ∧ j < n - 2
  · rw [if_pos hc, h hc.1]
    ring
  · rw [if_neg hc]

theorem injectNorth_preserve (m n : ℕ) (fN : Arr1) (rhs : Arr2) (i j : ℕ)
    (h : j = n - 3 → fN (i - 2) = 0) :
    injectNorth m n fN rhs i j = rhs i j := by
  unfold injectNorth
  by_cases hc : 2 ≤ i ∧ i < m - 2 ∧ j = n - 3
  · rw [if_pos hc, h hc.2.2]
    ring
  · rw [if_neg hc]

theorem injectSouth_preserve (m : ℕ) (fS : Arr1) (rhs : Arr2) (i j : ℕ)
    (h : j = 2 → fS (i - 2) = 0) :
    injectSouth m fS rhs i j = rhs i j := by
  unfold injectSouth
  by_cases hc : 2 ≤ i ∧ i < m - 2 ∧ j = 2
  · rw [if_pos hc, h hc.2.2]
    ring
  · rw [if_neg hc]

theorem petscInjectRhs_preserve (m n : ℕ) (cyclicX : Bool) (ip jp px py : ℕ)
    (fE fW fN fS : Arr1) (rhs : Arr2) (i j : ℕ)
    (hE : i = m - 3 → fE (j - 2) = 0) (hW : i = 2 → fW (j - 2) = 0)
    (hN : j = n - 3 → fN (i - 2) = 0) (hS : j = 2 → fS (i - 2) = 0) :
    petscInjectRhs m n cyclicX ip jp px py fE fW fN fS rhs i j = rhs i j := by
  simp only [petscInjectRhs]
  rw [apply_ite_arr _ (injectSouth m fS) _ i j
    (fun _ s => injectSouth_preserve m fS s i j hS)]
  rw [apply_ite_arr _ (injectNorth m n fN) _ i j
    (fun _ s => injectNorth_preserve m n fN s i j hN)]
  rw [apply_ite_arr _ (injectWest n fW) _ i j
    (fun _ s => injectWest_preserve n fW s i j hW)]
  rw [apply_ite_arr _ (injectEast m n fE) rhs i j
    (fun _ s => injectEast_preserve m n fE s i j hE)]

/-- C2: at a fully land-masked interior cell the assembled matrix row is
the identity row (center coefficient exactly 1, all four neighbour
coefficients exactly 0), and — for a Krylov solver whose returned
iterate satisfies the assembled row equation at that cell, which is
what an exact solve of the identity equation gives — the array returned
by `solve` carries exactly the supplied `boundary_val` there.  Stated
on the single-process decomposition (`proc_idx = (0, 0)`,
`num_proc = (1, 1)`), where this process owns all four domain edges. -/
theorem claimC2_land_identity (m n nz : ℕ) (cyclicX : Bool) (F : Fields) (mask3 : Mask3)
    (enforce : Arr2 → Bool → Arr2) (ksp : Arr2 → Arr2 → KrylovResult)
    (rhs x0 : Arr2) (boundaryVal : Option Arr2) (i j : ℕ)
    (hnz : 0 < nz) (hi : i < m - 4) (hj : j < n - 4)
    (hland : ∀ k, k < nz → mask3 (i + 2) (j + 2) k = true)
    (hksp : ∀ r x : Arr2, stencilRow nz mask3 F (ksp r x).sol i j = r i j) :
    cfMain nz mask3 F i j = 1 ∧
    cfEast nz mask3 F i j = 0 ∧ cfWest nz mask3 F i j = 0 ∧
    cfNorth nz mask3 F i j = 0 ∧ cfSouth nz mask3 F i j = 0 ∧
    (solveFacade m n nz cyclicX 0 0 1 1 F mask3 enforce ksp rhs x0 boundaryVal).1
        (i + 2) (j + 2)
      = (boundaryVal.getD x0) (i + 2) (j + 2) := by
  have hm0 : assembleMask nz mask3 i j = false := by
    unfold assembleMask
    rw [decide_eq_false_iff_not]
    intro hall
    have h := hall 0 hnz
    rw [hland 0 hnz] at h
    exact absurd h (by simp)
  have hmain : cfMain nz mask3 F i j = 1 := by
    simp [cfMain, hm0, maskQ]
  have heast : cfEast nz mask3 F i j = 0 := by
    simp [cfEast, hm0, maskQ]
  have hwest : cfWest nz mask3 F i j = 0 := by
    simp [cfWest, hm0, maskQ]
  have hnorth : cfNorth nz mask3 F i j = 0 := by
    simp [cfNorth, hm0, maskQ]
  have hsouth : cfSouth nz mask3 F i j = 0 := by
    simp [cfSouth, hm0, maskQ]
  have hsol : ∀ r x : Arr2, (ksp r x).sol i j = r i j := by
    intro r x
    have h := hksp r x
    unfold stencilRow at h
    rw [hmain, heast, hwest, hnorth, hsouth] at h
    linarith
  have hdec : decide (∀ k < nz, mask3 (i + 2) (j + 2) k = false) = false := hm0
  have hmaskval : solveRhsMask nz mask3 rhs (boundaryVal.getD x0) (i + 2) (j + 2)
      = (boundaryVal.getD x0) (i + 2) (j + 2) := by
    unfold solveRhsMask
    rw [hdec]
    simp
  have hinj : petscInjectRhs m n cyclicX 0 0 1 1
      (facEast m nz mask3 F) (facWest nz mask3 F) (facNorth n nz mask3 F)
      (facSouth nz mask3 F)
      (solveRhsMask nz mask3 rhs (boundaryVal.getD x0)) (i + 2) (j + 2)
      = solveRhsMask nz mask3 rhs (boundaryVal.getD x0) (i + 2) (j + 2) := by
    apply petscInjectRhs_preserve
    · intro hEdge
      have hi5 : i = m - 5 := by omega
      have hjj : (j + 2) - 2 = j := by omega
      rw [hjj]
      unfold facEast
      rw [← hi5]
      exact heast
    · intro hEdge
      have hi0 : i = 0 := by omega
      have hjj : (j + 2) - 2 = j := by omega
      rw [hjj]
      unfold facWest
      rw [← hi0]
      exact hwest
    · intro hEdge
      have hj5 : j = n - 5 := by omega
      have hii : (i + 2) - 2 = i := by omega
      rw [hii]
      unfold facNorth
      rw [← hj5]
      exact hnorth
    · intro hEdge
      have hj0 : j = 0 := by omega
      have hii : (i + 2) - 2 = i := by omega
      rw [hii]
      unfold facSouth
      rw [← hj0]
      exact hsouth
  refine ⟨hmain, heast, hwest, hnorth, hsouth, ?_⟩
  simp only [solveFacade, petscSolverRun]
  rw [if_pos (show 2 ≤ i + 2 ∧ i + 2 < m - 2 ∧ 2 ≤ j + 2 ∧ j + 2 < n - 2 from
    ⟨by omega, by omega, by omega, by omega⟩)]
  have hii : (i + 2) - 2 = i := by omega
  have hjj : (j + 2) - 2 = j := by omega
  rw [hii, hjj]
  simp only [hsol]
  rw [hinj, hmaskval]

/-- Witness for C2 on a 5 × 5 padded grid whose single interior cell is
fully masked: with boundary value 7 and a solver that satisfies the
identity row equation there, `solve` returns exactly 7 at that cell. -/
theorem claimC2_witness :
    (solveFacade 5 5 1 false 0 0 1 1 onesFields allMask3 (fun x _ => x)
        (fun r _ => ⟨r, 0, 0⟩) (fun _ _ => 5) (fun _ _ => 7) none).1 2 2
      = ((none : Option Arr2).getD (fun _ _ => 7)) 2 2 := by
  have h := claimC2_land_identity 5 5 1 false onesFields allMask3 (fun x _ => x)
    (fun r _ => ⟨r, 0, 0⟩) (fun _ _ => 5) (fun _ _ => 7) none 0 0
    (by decide) (by decide) (by decide) (fun k hk => rfl)
    (by
      intro r x
      unfold stencilRow
      have hm : assembleMask 1 allMask3 0 0 = false := by
        unfold assembleMask
        rw [decide_eq_false_iff_not]
        intro hall
        exact absurd (hall 0 (by norm_num)) (by simp [allMask3])
      have h1 : cfMain 1 allMask3 onesFields 0 0 = 1 := by simp [cfMain, hm, maskQ]
      have h2 : cfEast 1 allMask3 onesFields 0 0 = 0 := by simp [cfEast, hm, maskQ]
      have h3 : cfWest 1 allMask3 onesFields 0 0 = 0 := by simp [cfWest, hm, maskQ]
      have h4 : cfNorth 1 allMask3 onesFields 0 0 = 0 := by simp [cfNorth, hm, maskQ]
      have h5 : cfSouth 1 allMask3 onesFields 0 0 = 0 := by simp [cfSouth, hm, maskQ]
      rw [h1, h2, h3, h4, h5]
      ring)
  exact h.2.2.2.2.2

/-- C5: whenever the Krylov solve reports a negative convergence code,
`solve` does not raise: it still produces the full-domain result array,
whose interior carries the returned best-effort iterate, and exactly one
warning is emitted whose text contains the iteration count and the
error code. -/
theorem claimC5_nonconvergence (m n nz : ℕ) (cyclicX : Bool) (ip jp px py : ℕ)
    (F : Fields) (mask3 : Mask3) (enforce : Arr2 → Bool → Arr2)
    (ksp : Arr2 → Arr2 → KrylovResult) (rhs x0 : Arr2) (boundaryVal : Option Arr2)
    (hinfo : ∀ r x : Arr2, (ksp r x).info < 0) :
    ∃ kr : KrylovResult, kr.info < 0 ∧
      (solveFacade m n nz cyclicX ip jp px py F mask3 enforce ksp rhs x0 boundaryVal).2
        = [nonConvergenceWarning kr.iterations kr.info] ∧
      (∀ i j, 2 ≤ i → i < m - 2 → 2 ≤ j → j < n - 2 →
        (solveFacade m n nz cyclicX ip jp px py F mask3 enforce ksp rhs x0 boundaryVal).1 i j
          = kr.sol (i - 2) (j - 2)) ∧
      (∃ p q s : String, nonConvergenceWarning kr.iterations kr.info
        = p ++ toString kr.iterations ++ q ++ toString kr.info ++ s) := by
  refine ⟨ksp
      (fun a b => petscInjectRhs m n cyclicX ip jp px py
        (facEast m nz mask3 F) (facWest nz mask3 F) (facNorth n nz mask3 F)
        (facSouth nz mask3 F)
        (solveRhsMask nz mask3 rhs (boundaryVal.getD x0)) (a + 2) (b + 2))
      (fun a b => enforce x0 cyclicX (a + 2) (b + 2)),
    hinfo _ _, ?_, ?_, ?_⟩
  · simp only [solveFacade, petscSolverRun]
    rw [if_pos (hinfo _ _)]
  · intro i j h1 h2 h3 h4
    simp only [solveFacade, petscSolverRun]
    rw [if_pos (show 2 ≤ i ∧ i < m - 2 ∧ 2 ≤ j ∧ j < n - 2 from ⟨h1, h2, h3, h4⟩)]
  · exact ⟨"Streamfunction solver did not converge after ",
      " iterations (error code: ", ")", rfl⟩

/-- Witness for C5 with a solver stub that always reports convergence
code -3 after 7 iterations. -/
theorem claimC5_witness :
    ∃ kr : KrylovResult, kr.info < 0 ∧
      (solveFacade 5 5 1 false 0 0 1 1 onesFields noMask3 (fun x _ => x)
          (fun _ _ => ⟨fun _ _ => 0, -3, 7⟩) (fun _ _ => 5) (fun _ _ => 0) none).2
        = [nonConvergenceWarning kr.iterations kr.info] ∧
      (∀ i j, 2 ≤ i → i < 5 - 2 → 2 ≤ j → j < 5 - 2 →
        (solveFacade 5 5 1 false 0 0 1 1 onesFields noMask3 (fun x _ => x)
            (fun _ _ => ⟨fun _ _ => 0, -3, 7⟩) (fun _ _ => 5) (fun _ _ => 0) none).1 i j
          = kr.sol (i - 2) (j - 2)) ∧
      (∃ p q s : String, nonConvergenceWarning kr.iterations kr.info
        = p ++ toString kr.iterations ++ q ++ toString kr.info ++ s) :=
  claimC5_nonconvergence 5 5 1 false 0 0 1 1 onesFields noMask3 (fun x _ => x)
    (fun _ _ => ⟨fun _ _ => 0, -3, 7⟩) (fun _ _ => 5) (fun _ _ => 0) none
    (fun _ _ => by show (-3 : ℤ) < 0; decide)

/-- C8 counterexample: on a 5 × 5 padded grid whose single interior cell
(2, 2) is fully masked, the masking step sets the rhs there to the
boundary value 7, but the gather then overwrites that masked interior
cell with the linear-solver iterate (42 here): the region masked in the
rhs-masking step does NOT remain untouched by the gather. -/
theorem claimC8_counterexample :
    maskCell22 2 2 0 = true ∧
    solveRhsMask 1 maskCell22 (fun _ _ => 5) (fun _ _ => 7) 2 2 = 7 ∧
    (solveFacade 5 5 1 true 0 0 1 1 onesFields maskCell22 (fun x _ => x)
        (fun _ _ => ⟨fun _ _ => 42, 0, 0⟩) (fun _ _ => 5) (fun _ _ => 0)
        (some (fun _ _ => 7))).1 2 2 = 42 ∧
    (42 : ℚ) ≠ 7 := by
  refine ⟨by decide, ?_, ?_, by norm_num⟩
  · norm_num [solveRhsMask, maskCell22]
  · rfl

/-- C8 (amended): the array returned by `solve` has the shape of the
rhs buffer; the linear solution is written into the WHOLE interior
slice [2:-2, 2:-2] — including interior cells masked in the rhs-masking
step — while every cell outside that slice (the 2-cell padding) keeps
the masked-rhs value and is untouched by the gather. -/
theorem claimC8_amended_gather_whole_interior (m n nz : ℕ) (cyclicX : Bool)
    (ip jp px py : ℕ) (F : Fields) (mask3 : Mask3) (enforce : Arr2 → Bool → Arr2)
    (ksp : Arr2 → Arr2 → KrylovResult) (rhs x0 : Arr2) (boundaryVal : Option Arr2) :
    ∃ kr : KrylovResult,
      (∀ i j, 2 ≤ i → i < m - 2 → 2 ≤ j → j < n - 2 →
        (solveFacade m n nz cyclicX ip jp px py F mask3 enforce ksp rhs x0 boundaryVal).1 i j
          = kr.sol (i - 2) (j - 2)) ∧
      (∀ i j, ¬(2 ≤ i ∧ i < m - 2 ∧ 2 ≤ j ∧ j < n - 2) →
        (solveFacade m n nz cyclicX ip jp px py F mask3 enforce ksp rhs x0 boundaryVal).1 i j
          = solveRhsMask nz mask3 rhs (boundaryVal.getD x0) i j) := by
  refine ⟨ksp
      (fun a b => petscInjectRhs m n cyclicX ip jp px py
        (facEast m nz mask3 F) (facWest nz mask3 F) (facNorth n nz mask3 F)
        (facSouth nz mask3 F)
        (solveRhsMask nz mask3 rhs (boundaryVal.getD x0)) (a + 2) (b + 2))
      (fun a b => enforce x0 cyclicX (a + 2) (b + 2)), ?_, ?_⟩
  · intro i j h1 h2 h3 h4
    simp only [solveFacade, petscSolverRun]
    rw [if_pos (show 2 ≤ i ∧ i < m - 2 ∧ 2 ≤ j ∧ j < n - 2 from ⟨h1, h2, h3, h4⟩)]
  · intro i j h
    simp only [solveFacade, petscSolverRun]
    rw [if_neg h]

/-- Witness for the amended C8: the masked interior cell (2, 2) receives
the solver iterate, the padding cell (0, 0) keeps the masked rhs. -/
theorem claimC8_amended_witness :
    ∃ kr : KrylovResult,
      (solveFacade 5 5 1 true 0 0 1 1 onesFields maskCell22 (fun x _ => x)
          (fun _ _ => ⟨fun _ _ => 42, 0, 0⟩) (fun _ _ => 5) (fun _ _ => 0)
          (some (fun _ _ => 7))).1 2 2 = kr.sol 0 0 ∧
      (solveFacade 5 5 1 true 0 0 1 1 onesFields maskCell22 (fun x _ => x)
          (fun _ _ => ⟨fun _ _ => 42, 0, 0⟩) (fun _ _ => 5) (fun _ _ => 0)
          (some (fun _ _ => 7))).1 0 0
        = solveRhsMask 1 maskCell22 (fun _ _ => 5)
            ((some (fun _ _ => (7 : ℚ))).getD (fun _ _ => 0)) 0 0 := by
  obtain ⟨kr, h1, h2⟩ := claimC8_amended_gather_whole_interior 5 5 1 true 0 0 1 1
    onesFields maskCell22 (fun x _ => x) (fun _ _ => ⟨fun _ _ => 42, 0, 0⟩)
    (fun _ _ => 5) (fun _ _ => 0) (some (fun _ _ => 7))
  exact ⟨kr, by simpa using h1 2 2 (by decide) (by decide) (by decide) (by decide),
    h2 0 0 (by decide)⟩

/-- C10: when `solve` is called with `boundary_val` omitted, the value
substituted into masked rhs cells is the caller x0 exactly as passed:
the defaulting `boundary_val = x0` happens before `enforce_boundaries`
is applied to x0, so the substituted values never depend on the
enforcement function (which is universally quantified here and absent
from the masked-rhs computation); the second part observes the raw x0
value on the output of `solve` outside the gathered interior. -/
theorem claimC10_default_before_enforce (m n nz : ℕ) (cyclicX : Bool) (ip jp px py : ℕ)
    (F : Fields) (mask3 : Mask3) (enforce : Arr2 → Bool → Arr2)
    (ksp : Arr2 → Arr2 → KrylovResult) (rhs x0 : Arr2) (i j : ℕ)
    (hmasked : ¬(∀ k < nz, mask3 i j k = false)) :
    solveRhsMask nz mask3 rhs ((none : Option Arr2).getD x0) i j = x0 i j ∧
    (¬(2 ≤ i ∧ i < m - 2 ∧ 2 ≤ j ∧ j < n - 2) →
      (solveFacade m n nz cyclicX ip jp px py F mask3 enforce ksp rhs x0 none).1 i j
        = x0 i j) := by
  have h1 : solveRhsMask nz mask3 rhs ((none : Option Arr2).getD x0) i j = x0 i j := by
    unfold solveRhsMask
    rw [decide_eq_false_iff_not.mpr hmasked]
    simp
  refine ⟨h1, fun h => ?_⟩
  simp only [solveFacade, petscSolverRun]
  rw [if_neg h]
  exact h1

/-- Witness for C10 with a destructive enforcement stub that maps every
field to the constant 999: the masked padding cell (0, 0) still carries
the raw caller x0 value 7 in the solve output. -/
theorem claimC10_witness :
    solveRhsMask 1 allMask3 (fun _ _ => 5) ((none : Option Arr2).getD (fun _ _ => 7)) 0 0
      = 7 ∧
    (solveFacade 5 5 1 false 0 0 1 1 onesFields allMask3 (fun _ _ => fun _ _ => 999)
        (fun _ _ => ⟨fun _ _ => 0, 0, 0⟩) (fun _ _ => 5) (fun _ _ => 7) none).1 0 0
      = 7 := by
  obtain ⟨h1, h2⟩ := claimC10_default_before_enforce 5 5 1 false 0 0 1 1 onesFields allMask3
    (fun _ _ => fun _ _ => 999) (fun _ _ => ⟨fun _ _ => 0, 0, 0⟩) (fun _ _ => 5)
    (fun _ _ => 7) 0 0 (by decide)
  exact ⟨h1, h2 (by decide)⟩

end Veros
